import Mathlib

set_option autoImplicit false

/-
  A verification development for the pbalign pipeline-orchestration and
  file/reference-resolution subsystem (`pbalign/utils/fileutil.py` and
  `pbalign/pbalignrunner.py`).

  Paths are modelled as `List Char` (the character sequence of the Python
  string).  Filesystem access, XML parsing and the external collaborator
  services are modelled as explicit oracles passed in environment records;
  the pure string manipulation of the source is translated exactly.

  `op.abspath (op.expanduser fn)` is cwd-dependent I/O; it is modelled as
  the identity, i.e. paths are taken to be already absolute, normalized
  and free of a leading tilde.  The space-escaping `str.replace` calls,
  which are the content of the round-trip claims, are modelled exactly.
-/

deriving instance DecidableEq for Except

namespace Pbalign

/-- The closed enumeration of file formats, from
`FILE_FORMATS = enum(FASTA=..., PLS=..., ...)` in `pbalign/utils/fileutil.py`.
Each Python string constant becomes one constructor. -/
inductive FileFormat where
  | FASTA | PLS | PLX | BAS | BAX | FOFN | SAM | CMP | RGN | SA | XML | UNKNOWN | CCS | BAM
deriving DecidableEq

/-- Python `fn.replace('\\ ', ' ')` from `real_ppath` (fileutil.py line 80):
replace every (leftmost, non-overlapping) backslash-space pair by a space. -/
def unescSp : List Char → List Char
  | [] => []
  | [c] => [c]
  | c :: d :: rest =>
    if c = '\\' ∧ d = ' ' then ' ' :: unescSp rest
    else c :: unescSp (d :: rest)

/-- One character of Python `s.replace(' ', '\\ ')`: a space becomes a
backslash-space pair, anything else is kept. -/
def escChar (c : Char) : List Char := if c = ' ' then ['\\', ' '] else [c]

/-- Python `s.replace(' ', '\\ ')` from `real_upath` (fileutil.py line 95). -/
def escSp : List Char → List Char
  | [] => []
  | c :: rest => escChar c ++ escSp rest

/-- `real_ppath` (fileutil.py lines 68-80): canonicalize and convert the
path to "python style" by unescaping escaped spaces.  The
`op.abspath(op.expanduser(fn))` part is modelled as the identity (see the
file comment); the `replace` is exact. -/
def real_ppath (fn : List Char) : List Char := unescSp fn

/-- `real_upath` (fileutil.py lines 83-95): `real_ppath(fn).replace(' ', '\\ ')`,
the "unix style" form with every space escaped. -/
def real_upath (fn : List Char) : List Char := escSp (real_ppath fn)

/-- Python `os.path.splitext` (posixpath): split off the extension at the
last dot, provided that dot comes after the last slash and that some
non-dot character stands between them (so an all-dots basename has no
extension).  Translated from the CPython `genericpath._splitext`
algorithm, which `getFileFormat` relies on. -/
def splitextList (p : List Char) : List Char × List Char :=
  let t := p.reverse.takeWhile (fun c => c != '.' && c != '/')
  match p.reverse.dropWhile (fun c => c != '.' && c != '/') with
  | [] => (p, [])
  | c0 :: rest1 =>
    if c0 = '.' then
      match rest1.dropWhile (fun c => c == '.') with
      | [] => (p, [])
      | c :: _ => if c = '/' then (p, []) else (rest1.reverse, '.' :: t.reverse)
    else (p, [])

/-- ASCII lower-casing of one character, modelling Python `str.lower()`
on the characters that can influence the extension comparisons in
`getFileFormat` (all comparison targets are ASCII). -/
def asciiLower (c : Char) : Char :=
  if 'A' ≤ c ∧ c ≤ 'Z' then Char.ofNat (c.toNat + 32) else c

/-- Python `ext.lower()` on a path fragment. -/
def lowerL (l : List Char) : List Char := l.map asciiLower

/-- The four FASTA extensions of `getFileFormat` (fileutil.py line 142). -/
def fastaExts : List (List Char) :=
  [(".fa").toList, (".fasta").toList, (".fsta").toList, (".fna").toList]

/-- The inner dispatch of `getFileFormat` on the penultimate extension
segment of a `.h5` file (fileutil.py lines 154-169).  Note the source
maps `.bas` to `FILE_FORMATS.BAX`, exactly as written there. -/
def h5Sub (ext2 : List Char) : FileFormat :=
  if ext2 = (".pls").toList then .PLS
  else if ext2 = (".plx").toList then .PLX
  else if ext2 = (".bas").toList then .BAX
  else if ext2 = (".bax").toList then .BAX
  else if ext2 = (".cmp").toList then .CMP
  else if ext2 = (".rgn").toList then .RGN
  else if ext2 = (".ccs").toList then .CCS
  else .UNKNOWN

/-- `getFileFormat` (fileutil.py lines 133-170): classify a path by its
lower-cased extension; for `.h5`, dispatch on the penultimate extension
segment; anything else is UNKNOWN. -/
def getFileFormat (filename : List Char) : FileFormat :=
  let base := (splitextList filename).1
  let ext := lowerL (splitextList filename).2
  if ext ∈ fastaExts then .FASTA
  else if ext = (".sam").toList then .SAM
  else if ext = (".bam").toList then .BAM
  else if ext = (".sa").toList then .SA
  else if ext = (".fofn").toList then .FOFN
  else if ext = (".xml").toList then .XML
  else if ext = (".h5").toList then h5Sub (lowerL (splitextList base).2)
  else .UNKNOWN

/-- All extensions recognized at the outer level of `getFileFormat`. -/
def knownExts : List (List Char) :=
  fastaExts ++ [(".sam").toList, (".bam").toList, (".sa").toList,
                (".fofn").toList, (".xml").toList, (".h5").toList]

/-- A concrete case-changing map used to witness `c3_format_extension_only`. -/
def caseSwapPL (c : Char) : Char :=
  if c = 'p' then 'P' else if c = 'l' then 'L' else c

/-- The condition under which `splitextList` accepts a final dot as the
extension separator: stripping trailing dots from the candidate base must
expose a character that is neither a dot nor a slash. -/
def endsGoodB (q : List Char) : Bool :=
  match q.reverse.dropWhile (fun c => c == '.') with
  | [] => false
  | c :: _ => c != '/'

/-- Python `posixpath.split`: split at the final slash; the head keeps
its trailing slash only when it consists solely of slashes. -/
def posixSplit (p : List Char) : List Char × List Char :=
  let tail := (p.reverse.takeWhile (fun c => c != '/')).reverse
  let head := (p.reverse.dropWhile (fun c => c != '/')).reverse
  if head ≠ [] ∧ head.any (fun c => c != '/') then
    ((head.reverse.dropWhile (fun c => c == '/')).reverse, tail)
  else (head, tail)

/-- Python `op.dirname`, the first component of `posixSplit`. -/
def dirname (p : List Char) : List Char := (posixSplit p).1

/-- Python `op.join(a, b)` for one relative or absolute component. -/
def pathJoin (a b : List Char) : List Char :=
  if b.head? = some '/' then b
  else if a = [] ∨ a.getLast? = some '/' then a ++ b
  else a ++ '/' :: b

/-- The descriptor file name used by `checkReferencePath`. -/
def refInfoXmlName : List Char := ("reference.info.xml").toList

/-- Strip the `file:` scheme from a dataset-resolved URI
(fileutil.py line 378: `fastaFiles[0][5:] if fastaFiles[0].startswith('file:')`). -/
def stripFileScheme (f : List Char) : List Char :=
  if f.take 5 = ("file:").toList then f.drop 5 else f

/-- Reasons for which constructing a `ReferenceInfo` from
`reference.info.xml` can fail (fileutil.py lines 276-342): the file name
is not XML, the file is missing, the descriptor lists no `text/fasta`
file, or the XML is malformed. -/
inductive DescErr where
  | notXmlFormat | missingFile | noFastaEntry | xmlParseError
deriving DecidableEq

/-- The fields a successfully parsed `ReferenceInfo` exposes to
`checkReferencePath` (fileutil.py lines 282-285): on success the FASTA
file is always set (the parser raises otherwise), the sawriter index and
the adapter GFF annotation are optional. -/
structure RefInfoData where
  refFastaFile : List Char
  refSawriterFile : Option (List Char)
  adapterGffFile : Option (List Char)
deriving DecidableEq

/-- Oracles for the effectful parts of `checkReferencePath`: filesystem
existence (`isExist`), the dataset resolution `ReferenceSet(...).toFofn()`
and the whole `ReferenceInfo(...)` constructor outcome. -/
structure RefEnv where
  pathExists : List Char → Bool
  datasetFofn : List Char → List (List Char)
  parseRefInfo : List Char → Except DescErr RefInfoData

/-- The errors `checkReferencePath` can raise (fileutil.py lines 360-406);
`descriptor` would stand for a propagated descriptor-parsing error, which
the function in fact never lets escape. -/
inductive RefError where
  | pathNotExist | ambiguousReference | referenceNotFound | invalidReference
  | descriptor (e : DescErr)
deriving DecidableEq

/-- The tuple returned by `checkReferencePath` (fileutil.py lines 418-419). -/
structure RefBundle where
  refpath : List Char
  fastaFile : List Char
  indexFile : Option (List Char)
  isWithinRepository : Bool
  adapterGffFile : Option (List Char)
deriving DecidableEq

/-- The tail of `checkReferencePath` (fileutil.py lines 402-419): validate
that the chosen FASTA file is classified FASTA, silently discard a
sawriter index that is not an existing `.sa` file, and assemble the
returned tuple. -/
def finishRef (env : RefEnv) (refpath fastaFile : List Char)
    (sawriterFile : Option (List Char)) (isRepo : Bool)
    (gff : Option (List Char)) : Except RefError RefBundle :=
  if getFileFormat fastaFile ≠ .FASTA then .error .invalidReference
  else
    let saw : Option (List Char) :=
      match sawriterFile with
      | none => none
      | some s =>
        if getFileFormat s ≠ .SA ∨ env.pathExists s = false then none
        else some (real_upath s)
    .ok ⟨real_upath refpath, real_upath fastaFile, saw, isRepo, gff⟩

/-- `checkReferencePath` (fileutil.py lines 345-419): resolve a reference
argument (FASTA file, dataset XML or repository directory) to a
reference bundle, trying the repository descriptor first and falling
back to the directly identified FASTA file on any descriptor failure. -/
def checkReferencePath (env : RefEnv) (inRefpath : List Char) :
    Except RefError RefBundle :=
  let refpath := real_ppath inRefpath
  if env.pathExists refpath = false then .error .pathNotExist
  else if getFileFormat refpath = .FASTA then
    match env.parseRefInfo (pathJoin (posixSplit (dirname refpath)).1 refInfoXmlName) with
    | .ok info =>
      finishRef env refpath info.refFastaFile info.refSawriterFile true info.adapterGffFile
    | .error _ => finishRef env refpath refpath none false none
  else if getFileFormat refpath = .XML then
    match env.datasetFofn refpath with
    | [f0] =>
      match env.parseRefInfo (pathJoin (posixSplit (dirname refpath)).1 refInfoXmlName) with
      | .ok info =>
        finishRef env refpath info.refFastaFile info.refSawriterFile true info.adapterGffFile
      | .error _ => finishRef env refpath (stripFileScheme f0) none false none
    | _ => .error .ambiguousReference
  else
    match env.parseRefInfo (pathJoin refpath refInfoXmlName) with
    | .ok info =>
      finishRef env refpath info.refFastaFile info.refSawriterFile true info.adapterGffFile
    | .error _ => .error .referenceNotFound

/-- A concrete environment whose descriptor always parses to a
repository pointing at `/r/seq/ref.fasta` with index `/r/seq/ref.fasta.sa`. -/
def refEnvRepo : RefEnv :=
  ⟨fun _ => true, fun _ => [],
    fun _ => .ok ⟨("/r/seq/ref.fasta").toList, some (("/r/seq/ref.fasta.sa").toList), none⟩⟩

/-- A concrete environment in which every descriptor parse fails. -/
def refEnvParseFail : RefEnv :=
  ⟨fun _ => true, fun _ => [], fun _ => .error .xmlParseError⟩

/-- A concrete environment in which every descriptor parse fails but the
dataset resolver yields exactly one `file:`-prefixed reference URI. -/
def refEnvDataset : RefEnv :=
  ⟨fun _ => true, fun _ => [("file:/ds/ref.fasta").toList],
    fun _ => .error .xmlParseError⟩

/-- A concrete environment where the descriptor parses but the named
`.sa` index file has been deleted from disk. -/
def refEnvNoSa : RefEnv :=
  ⟨fun q => q != ("/r/seq/ref.fasta.sa").toList, fun _ => [],
    fun _ => .ok ⟨("/r/seq/ref.fasta").toList, some (("/r/seq/ref.fasta.sa").toList), none⟩⟩

/-- `VALID_OUTPUT_FORMATS` (fileutil.py lines 64-65). -/
def VALID_OUTPUT_FORMATS : List FileFormat := [.CMP, .SAM, .BAM, .XML]

/-- `VALID_INPUT_FORMATS` (fileutil.py lines 56-60). -/
def VALID_INPUT_FORMATS : List FileFormat :=
  [.FASTA, .PLS, .PLX, .BAS, .BAX, .FOFN, .CCS, .BAM, .XML]

/-- `isValidOutputFormat` (fileutil.py lines 123-125). -/
def isValidOutputFormat (ff : FileFormat) : Bool := decide (ff ∈ VALID_OUTPUT_FORMATS)

/-- Filesystem state for `checkOutputFile`: the set of existing files and
the set of directories in which a new file may be created. -/
structure FS where
  files : List (List Char)
  writableDirs : List (List Char)
deriving DecidableEq

/-- POSIX semantics of Python `open(p, "a")` as used by
`checkOutputFile`: opening an existing file for append changes nothing;
opening a missing path creates an empty file when its parent directory
is writable, and raises IOError otherwise. -/
def openAppend (fs : FS) (p : List Char) : Except Unit FS :=
  if p ∈ fs.files then .ok fs
  else if dirname p ∈ fs.writableDirs then .ok ⟨p :: fs.files, fs.writableDirs⟩
  else .error ()

/-- The errors `checkOutputFile` raises (fileutil.py lines 252-269). -/
inductive OutFileError where
  | invalidFormat | notWritable
deriving DecidableEq

/-- `checkOutputFile` (fileutil.py lines 252-269): reject output paths
whose extension is not a valid output format, then validate writability
by opening the path in append mode; return the unix-style path together
with the resulting filesystem state. -/
def checkOutputFile (fs : FS) (filename : List Char) :
    Except OutFileError (List Char × FS) :=
  let fn := real_ppath filename
  if isValidOutputFormat (getFileFormat fn) = false then .error .invalidFormat
  else
    match openAppend fs fn with
    | .error _ => .error .notWritable
    | .ok fs2 => .ok (real_upath fn, fs2)

/-- The (ASCII) whitespace stripped by Python `str.strip()`. -/
def isPySpace (c : Char) : Bool :=
  c = ' ' || c = '\t' || c = '\n' || c = '\r' || c = '\x0b' || c = '\x0c'

/-- Python `l.strip()`: drop whitespace from both ends of a line. -/
def pstrip (l : List Char) : List Char :=
  ((l.dropWhile isPySpace).reverse.dropWhile isPySpace).reverse

/-- Python string `<=`: lexicographic comparison by code point. -/
def lexLe : List Char → List Char → Bool
  | [], _ => true
  | _ :: _, [] => false
  | a :: as, b :: bs => if a = b then lexLe as bs else decide (a < b)

/-- Insert a line into an already sorted list of lines, before the first
line that is not smaller. -/
def insertLine (a : List Char) : List (List Char) → List (List Char)
  | [] => [a]
  | b :: bs => if lexLe a b = true then a :: b :: bs else b :: insertLine a bs

/-- Python `lines.sort()`: sort the raw lines ascending by `<`.  The
source's Timsort is stable, and since equal keys here are identical
strings, any comparison sort computes the same list; insertion sort is
used as the executable model. -/
def sortLines : List (List Char) → List (List Char)
  | [] => []
  | x :: xs => insertLine x (sortLines xs)

/-- `getFilesFromFOFN` (fileutil.py lines 173-183): read the manifest
lines, sort the RAW lines (before stripping), then strip each line and
resolve it with `real_upath`.  Blank lines are not filtered out. -/
def getFilesFromFOFN (lines : List (List Char)) : List (List Char) :=
  (sortLines lines).map (fun l => real_upath (pstrip l))

/-- Oracles for `checkInputFile`: filesystem existence and the
`readlines()` result of the manifest file. -/
structure InEnv where
  pathExists : List Char → Bool
  readLines : List Char → List (List Char)

/-- The errors `checkInputFile` raises (fileutil.py lines 194-228); the
empty-FOFN `ValueError` is the manifest-empty error. -/
inductive InError where
  | unsupportedFormat | missingFile | manifestEmpty | fofnEntryMissing
deriving DecidableEq

/-- `checkInputFile` (fileutil.py lines 194-228): validate the format and
existence of an input file; for a FOFN, expand it, fail if the expansion
is empty (`len(fileList) == 0`), and fail if any listed file is missing. -/
def checkInputFile (env : InEnv) (filename : List Char)
    (validFormats : List FileFormat) : Except InError (List Char) :=
  let fn := real_ppath filename
  if getFileFormat fn ∉ validFormats then .error .unsupportedFormat
  else if env.pathExists fn = false then .error .missingFile
  else if getFileFormat fn = .FOFN then
    let fileList := getFilesFromFOFN (env.readLines fn)
    if fileList.length = 0 then .error .manifestEmpty
    else if fileList.all env.pathExists then .ok (real_upath fn)
    else .error .fofnEntryMissing
  else .ok (real_upath fn)

namespace PBAlignRunner

/-- The argument fields `_makeSane` reads and writes
(pbalignrunner.py lines 136-162). -/
structure SaneArgs where
  useccs : List Char
  readType : List Char
  forQuiver : Bool
  algorithm : List Char
  filterAdapterOnly : Bool
deriving DecidableEq

/-- The file-name fields `_makeSane` reads (pbalignrunner.py). -/
structure SaneFileNames where
  inputFileFormat : FileFormat
  outputFileName : List Char
deriving DecidableEq

/-- The fatal configuration errors `_makeSane` can raise: the
unconditional CMP.H5 rejection (an IOError in the source) and the two
ValueErrors for binary-container output. -/
inductive SaneError where
  | cmpH5NotSupported | mustUseBlasrForBam | filterAdapterBam
deriving DecidableEq

/-- `PBAlignRunner._makeSane` (pbalignrunner.py lines 136-162): normalize
the read type for CCS inputs, reject CMP.H5 output unconditionally, and
reject BAM/XML output unless the algorithm is blasr and adapter-only
filtering is off.  Returns the (possibly updated) arguments. -/
def makeSane (args : SaneArgs) (fileNames : SaneFileNames) : Except SaneError SaneArgs :=
  let args1 :=
    if args.useccs = ("useccsdenovo").toList then
      ⟨args.useccs, ("CCS").toList, args.forQuiver, args.algorithm, args.filterAdapterOnly⟩
    else args
  let args2 :=
    if fileNames.inputFileFormat = .CCS then
      ⟨args1.useccs, ("CCS").toList, args1.forQuiver, args1.algorithm, args1.filterAdapterOnly⟩
    else args1
  let outFormat := getFileFormat fileNames.outputFileName
  if outFormat = .CMP then .error .cmpH5NotSupported
  else if outFormat = .BAM ∨ outFormat = .XML then
    if args2.algorithm ≠ ("blasr").toList then .error .mustUseBlasrForBam
    else if args2.filterAdapterOnly then .error .filterAdapterBam
    else .ok args2
  else .ok args2

/-- The filesystem operations `_output` may attempt, recorded as a trace.
The source only ever calls `shutil.move` (for SAM) or writes the dataset
descriptor (for XML); it has no copy operation. -/
inductive OutOp where
  | moveOp (src dst : List Char)
  | writeDatasetOp (bam out ref : List Char)
deriving DecidableEq

/-- Oracles for the effectful parts of `_output`: `os.readlink` and the
outcome of `shutil.move` (its error message when it raises
`shutil.Error`). -/
structure OutEnv where
  readlink : List Char → List Char
  moveResult : Except (List Char) Unit

/-- The exceptions `_output` can raise (pbalignrunner.py lines 193-200):
the re-raised RuntimeError after a failed move, and the CMP.H5
rejection. -/
inductive OutputError where
  | moveFailed | cmpNotSupported
deriving DecidableEq

/-- `PBAlignRunner._output` (pbalignrunner.py lines 171-215): for SAM
output, move (via `shutil.move` on the resolved link target) the filtered
intermediate file onto the final path, re-raising any move failure; for
BAM do nothing; for CMP.H5 fail; for XML write the dataset descriptor
next to the `{out}.bam` file.  The second component is the trace of
attempted filesystem operations. -/
def output (env : OutEnv) (inSam refFile outFile : List Char) :
    Except OutputError Unit × List OutOp :=
  let outFormat := getFileFormat outFile
  if outFormat = .SAM then
    let src := env.readlink (real_ppath inSam)
    let dst := real_ppath outFile
    match env.moveResult with
    | .ok _ => (.ok (), [.moveOp src dst])
    | .error _ => (.error .moveFailed, [.moveOp src dst])
  else if outFormat = .CMP then (.error .cmpNotSupported, [])
  else if outFormat = .XML then
    (.ok (), [.writeDatasetOp (outFile.take (outFile.length - 3) ++ ("bam").toList)
      outFile refFile])
  else (.ok (), [])

/-- A concrete environment whose move always fails. -/
def outEnvMoveFail : OutEnv := ⟨fun x => x, .error (("boom").toList)⟩

/-- One Boolean per stage of `PBAlignRunner.run`, telling whether the
delegated operation succeeds, plus the two option fields `run` reads. -/
structure RunEnv where
  serviceOk : Bool
  makeSaneOk : Bool
  alignOk : Bool
  filterOk : Bool
  bamOrXmlOut : Bool
  postOk : Bool
  outputOk : Bool
  keepTmpFiles : Bool
deriving DecidableEq

/-- The stage in which an exception aborts `run`. -/
inductive RunStage where
  | createAlignService | makeSaneStage | alignRun | filterRun | bamPost | outputStage
deriving DecidableEq

/-- What a call to `run` did: its result (error = uncaught exception from
that stage) and whether `_cleanUp` was invoked, with which `realDelete`
argument. -/
structure RunOutcome where
  result : Except RunStage Nat
  cleanUpCall : Option Bool
deriving DecidableEq

/-- `PBAlignRunner.run` (pbalignrunner.py lines 222-278), straight-line
with exception propagation: the stages execute in order, an exception in
any stage propagates out of `run` immediately (there is no try/finally
around the body), and only the fall-through success path reaches the
trailing `self._cleanUp(...)` call, whose `realDelete` argument is the
negation of `keepTmpFiles`. -/
def run (env : RunEnv) : RunOutcome :=
  if env.serviceOk = false then ⟨.error .createAlignService, none⟩
  else if env.makeSaneOk = false then ⟨.error .makeSaneStage, none⟩
  else if env.alignOk = false then ⟨.error .alignRun, none⟩
  else if env.filterOk = false then ⟨.error .filterRun, none⟩
  else if env.bamOrXmlOut = true ∧ env.postOk = false then ⟨.error .bamPost, none⟩
  else if env.outputOk = false then ⟨.error .outputStage, none⟩
  else ⟨.ok 0, some (!env.keepTmpFiles)⟩

end PBAlignRunner

theorem escSp_append (l₁ l₂ : List Char) : escSp (l₁ ++ l₂) = escSp l₁ ++ escSp l₂ := by
  induction l₁ with
  | nil => rfl
  | cons c rest ih => simp [escSp, ih]

theorem escSp_head_ne_space (l : List Char) (d : Char) (rest : List Char)
    (h : escSp l = d :: rest) : d ≠ ' ' := by
  cases l with
  | nil => simp [escSp] at h
  | cons c t =>
    simp only [escSp, escChar] at h
    by_cases hc : c = ' '
    · rw [if_pos hc] at h
      have : d = '\\' := (List.cons.injEq _ _ _ _ ▸ h).1.symm
      simp [this]
    · rw [if_neg hc] at h
      have : d = c := (List.cons.injEq _ _ _ _ ▸ h).1.symm
      simp [this, hc]

theorem unescSp_escSp (l : List Char) : unescSp (escSp l) = l := by
  induction l with
  | nil => rfl
  | cons c t ih =>
    by_cases hc : c = ' '
    · subst hc
      simp only [escSp, escChar, if_pos rfl, List.cons_append, List.nil_append]
      simp [unescSp, ih]
    · simp only [escSp, escChar, if_neg hc, List.cons_append, List.nil_append]
      cases hes : escSp t with
      | nil =>
        cases t with
        | nil => simp [unescSp]
        | cons x y => simp only [escSp, escChar] at hes; split_ifs at hes <;> simp at hes
      | cons d rest =>
        have hd : d ≠ ' ' := escSp_head_ne_space t d rest hes
        simp only [unescSp]
        rw [if_neg (by intro hand; exact hd hand.2), ← hes, ih]

/-- C2, counterexample.  The round-trip claim fails on paths that are
legal under the claim's own side condition (no consecutive escaped
spaces): escaping after unescaping is not the identity on a path with a
literal space, and unescaping after escaping is not the identity on a
path with an escaped space. -/
theorem c2_counterexample :
    ((¬ List.IsInfix ['\\', ' ', '\\', ' '] ("/a b").toList) ∧
      real_upath (real_ppath ("/a b").toList) ≠ ("/a b").toList) ∧
    ((¬ List.IsInfix ['\\', ' ', '\\', ' '] ("/a\\ b").toList) ∧
      real_ppath (real_upath ("/a\\ b").toList) ≠ ("/a\\ b").toList) := by
  decide

/-- C2, amended.  The two transforms are mutually inverse only between
python-style paths (no escaped space) and their unix-style images: for
every `p` with no escaped space, `real_ppath (real_upath p) = p`, and
escape-after-unescape is the identity on the escaped form `real_upath p`. -/
theorem c2_amended_roundtrip (p : List Char) (h : unescSp p = p) :
    real_ppath (real_upath p) = p ∧
    real_upath (real_ppath (real_upath p)) = real_upath p := by
  have h1 : real_ppath (real_upath p) = p := by
    show unescSp (escSp (unescSp p)) = p
    rw [h, unescSp_escSp]
  exact ⟨h1, by rw [h1]⟩

/-- Witness for `c2_amended_roundtrip` at the concrete path `/a b`. -/
theorem c2_witness :
    unescSp ("/a b").toList = ("/a b").toList ∧
    real_ppath (real_upath ("/a b").toList) = ("/a b").toList :=
  ⟨by decide, (c2_amended_roundtrip ("/a b").toList (by decide)).1⟩

theorem stopPred_comp (f : Char → Char)
    (h2 : ∀ c, f c = '.' ↔ c = '.') (h3 : ∀ c, f c = '/' ↔ c = '/') :
    ((fun c => c != '.' && c != '/') ∘ f) = (fun c => c != '.' && c != '/') := by
  funext c
  simp only [Function.comp_apply]
  have hd : (f c != '.') = (c != '.') := by
    by_cases hc : c = '.'
    · subst hc; simp [(h2 _).mpr rfl]
    · have hfc : f c ≠ '.' := fun h => hc ((h2 c).mp h)
      rw [bne_iff_ne.mpr hfc, bne_iff_ne.mpr hc]
  have hs : (f c != '/') = (c != '/') := by
    by_cases hc : c = '/'
    · subst hc; simp [(h3 _).mpr rfl]
    · have hfc : f c ≠ '/' := fun h => hc ((h3 c).mp h)
      rw [bne_iff_ne.mpr hfc, bne_iff_ne.mpr hc]
  rw [hd, hs]

theorem dotPred_comp (f : Char → Char) (h2 : ∀ c, f c = '.' ↔ c = '.') :
    ((fun c => c == '.') ∘ f) = (fun c => c == '.') := by
  funext c
  simp only [Function.comp_apply]
  by_cases hc : c = '.'
  · subst hc; simp [(h2 _).mpr rfl]
  · have hfc : f c ≠ '.' := fun h => hc ((h2 c).mp h)
    simp [hc, hfc]

/-- A character map that fixes dots and slashes commutes with
`splitextList`: the extension of the mapped path is the mapped
extension. -/
theorem splitextList_map (f : Char → Char)
    (h2 : ∀ c, f c = '.' ↔ c = '.') (h3 : ∀ c, f c = '/' ↔ c = '/')
    (p : List Char) :
    splitextList (p.map f) =
      ((splitextList p).1.map f, (splitextList p).2.map f) := by
  have hfdot : f '.' = '.' := (h2 '.').mpr rfl
  simp only [splitextList, ← List.map_reverse, List.takeWhile_map,
    List.dropWhile_map, stopPred_comp f h2 h3, dotPred_comp f h2]
  cases hdw : p.reverse.dropWhile (fun c => c != '.' && c != '/') with
  | nil => simp
  | cons c0 rest1 =>
    simp only [List.map_cons, h2 c0]
    by_cases hc0 : c0 = '.'
    · simp only [if_pos hc0]
      rw [List.dropWhile_map, dotPred_comp f h2]
      cases hdw2 : rest1.dropWhile (fun c => c == '.') with
      | nil => simp
      | cons c rest2 =>
        simp only [List.map_cons, h3 c]
        by_cases hc : c = '/'
        · simp only [if_pos hc]; simp
        · simp only [if_neg hc]
          simp [← List.map_reverse, hfdot]
    · simp only [if_neg hc0]; simp

theorem lowerL_map (f : Char → Char) (h1 : ∀ c, asciiLower (f c) = asciiLower c)
    (l : List Char) : lowerL (l.map f) = lowerL l := by
  simp only [lowerL, List.map_map]
  induction l with
  | nil => rfl
  | cons c t ih => simp only [List.map_cons, Function.comp_apply, h1 c, ih]

theorem h5Sub_ne_FASTA (e : List Char) : h5Sub e ≠ .FASTA := by
  unfold h5Sub
  split_ifs <;> simp

/-- C3.  `getFileFormat` is a total pure function of the path's
extension segments only, compared case-insensitively: it is invariant
under any character map that preserves case-folding, dots and slashes;
it returns UNKNOWN (it never fails) whenever the lower-cased last
extension is unrecognized; and on a `.h5` container it dispatches on the
lower-cased penultimate extension segment via `h5Sub`. -/
theorem c3_format_extension_only (p : List Char) (f : Char → Char)
    (h1 : ∀ c, asciiLower (f c) = asciiLower c)
    (h2 : ∀ c, f c = '.' ↔ c = '.')
    (h3 : ∀ c, f c = '/' ↔ c = '/') :
    getFileFormat (p.map f) = getFileFormat p ∧
    (lowerL (splitextList p).2 ∉ knownExts → getFileFormat p = .UNKNOWN) ∧
    (lowerL (splitextList p).2 = (".h5").toList →
      getFileFormat p = h5Sub (lowerL (splitextList (splitextList p).1).2)) := by
  refine ⟨?_, ?_, ?_⟩
  · simp only [getFileFormat, splitextList_map f h2 h3, lowerL_map f h1]
  · intro h
    simp only [getFileFormat]
    split_ifs with hfa hsam hbam hsa hfofn hxml hh5
    · exact absurd (by simp only [knownExts]; exact List.mem_append_left _ hfa) h
    · exact absurd (by simp [knownExts, hsam]) h
    · exact absurd (by simp [knownExts, hbam]) h
    · exact absurd (by simp [knownExts, hsa]) h
    · exact absurd (by simp [knownExts, hfofn]) h
    · exact absurd (by simp [knownExts, hxml]) h
    · exact absurd (by simp [knownExts, hh5]) h
    · rfl
  · intro h
    simp only [getFileFormat]
    split_ifs with hfa hsam hbam hsa hfofn hxml
    · exact absurd (h ▸ hfa) (by decide)
    · exact absurd (hsam.symm.trans h) (by decide)
    · exact absurd (hbam.symm.trans h) (by decide)
    · exact absurd (hsa.symm.trans h) (by decide)
    · exact absurd (hfofn.symm.trans h) (by decide)
    · exact absurd (hxml.symm.trans h) (by decide)
    · rfl

theorem caseSwapPL_lower (c : Char) : asciiLower (caseSwapPL c) = asciiLower c := by
  unfold caseSwapPL
  split_ifs with h h'
  · subst h; decide
  · subst h'; decide
  · rfl

theorem caseSwapPL_dot (c : Char) : caseSwapPL c = '.' ↔ c = '.' := by
  unfold caseSwapPL
  split_ifs with h h'
  · subst h; decide
  · subst h'; decide
  · exact Iff.rfl

theorem caseSwapPL_slash (c : Char) : caseSwapPL c = '/' ↔ c = '/' := by
  unfold caseSwapPL
  split_ifs with h h'
  · subst h; decide
  · subst h'; decide
  · exact Iff.rfl

/-- Witness for `c3_format_extension_only`: mapping `x.pls.h5` through a
case change leaves the classification `PLS` unchanged. -/
theorem c3_witness :
    getFileFormat (("x.pls.h5").toList.map caseSwapPL) = getFileFormat ("x.pls.h5").toList ∧
    getFileFormat ("x.pls.h5").toList = .PLS := by
  refine ⟨?_, by decide⟩
  exact (c3_format_extension_only ("x.pls.h5").toList caseSwapPL
    caseSwapPL_lower caseSwapPL_dot caseSwapPL_slash).1

theorem unescSp_append_cons : ∀ (q : List Char) (c : Char) (r : List Char), c ≠ ' ' →
    unescSp (q ++ c :: r) = unescSp q ++ unescSp (c :: r)
  | [], c, r, _ => by simp [unescSp]
  | [a], c, r, hc => by
    show unescSp (a :: c :: r) = unescSp [a] ++ unescSp (c :: r)
    simp only [unescSp]
    rw [if_neg (fun hand => hc hand.2)]
    rfl
  | a :: b :: q', c, r, hc => by
    have ih := unescSp_append_cons (b :: q') c r hc
    show unescSp (a :: b :: (q' ++ c :: r)) = unescSp (a :: b :: q') ++ unescSp (c :: r)
    simp only [unescSp]
    by_cases hab : a = '\\' ∧ b = ' '
    · rw [if_pos hab, if_pos hab, unescSp_append_cons q' c r hc]
      rfl
    · rw [if_neg hab, if_neg hab]
      rw [show (b :: q') ++ c :: r = b :: (q' ++ c :: r) from rfl] at ih
      rw [ih]
      rfl

theorem unescSp_append_nolastbs : ∀ (q r : List Char), q.getLast? ≠ some '\\' →
    unescSp (q ++ r) = unescSp q ++ unescSp r
  | [], r, _ => by simp [unescSp]
  | [a], r, h => by
    have ha : a ≠ '\\' := by
      intro hb
      exact h (by rw [hb]; rfl)
    cases r with
    | nil => simp [unescSp]
    | cons d r' =>
      show unescSp (a :: d :: r') = unescSp [a] ++ unescSp (d :: r')
      simp only [unescSp]
      rw [if_neg (fun hand => ha hand.1)]
      rfl
  | a :: b :: q', r, h => by
    have h' : (b :: q').getLast? ≠ some '\\' := by
      rwa [List.getLast?_cons_cons] at h
    have ih := unescSp_append_nolastbs (b :: q') r h'
    show unescSp (a :: b :: (q' ++ r)) = unescSp (a :: b :: q') ++ unescSp r
    simp only [unescSp]
    by_cases hab : a = '\\' ∧ b = ' '
    · rw [if_pos hab, if_pos hab]
      have hq' : q'.getLast? ≠ some '\\' := by
        cases q' with
        | nil => simp
        | cons x xs => rwa [List.getLast?_cons_cons] at h'
      rw [unescSp_append_nolastbs q' r hq']
      rfl
    · rw [if_neg hab, if_neg hab]
      rw [show (b :: q') ++ r = b :: (q' ++ r) from rfl] at ih
      rw [ih]
      rfl

theorem unescSp_cons_ne_bs (a : Char) (l : List Char) (ha : a ≠ '\\') :
    unescSp (a :: l) = a :: unescSp l := by
  cases l with
  | nil => rfl
  | cons d l' =>
    simp only [unescSp]
    rw [if_neg (fun hand => ha hand.1)]

theorem unescSp_nospace : ∀ (l : List Char), (∀ c ∈ l, c ≠ ' ') → unescSp l = l
  | [], _ => rfl
  | [_], _ => rfl
  | c :: d :: rest, h => by
    have hd : d ≠ ' ' := h d (by simp)
    simp only [unescSp]
    rw [if_neg (fun hand => hd hand.2),
      unescSp_nospace (d :: rest) (fun x hx => h x (List.mem_cons_of_mem c hx))]

theorem escSp_nospace (l : List Char) (h : ∀ c ∈ l, c ≠ ' ') : escSp l = l := by
  induction l with
  | nil => rfl
  | cons c t ih =>
    simp only [escSp, escChar, if_neg (h c (by simp))]
    rw [ih (fun x hx => h x (List.mem_cons_of_mem c hx))]
    rfl

theorem dropWhile_head_neg {α : Type} (p : α → Bool) :
    ∀ (l : List α) (c : α) (rest : List α), List.dropWhile p l = c :: rest → p c = false := by
  intro l
  induction l with
  | nil => intro c rest h; simp at h
  | cons a t ih =>
    intro c rest h
    by_cases hp : p a = true
    · rw [List.dropWhile_cons_of_pos hp] at h
      exact ih c rest h
    · rw [List.dropWhile_cons_of_neg hp] at h
      injection h with h1 _
      subst h1
      exact Bool.eq_false_iff.mpr hp

theorem endsGoodB_iff (q : List Char) :
    endsGoodB q = true ↔
      ∃ q₁ c ds, c ≠ '.' ∧ c ≠ '/' ∧ (∀ d ∈ ds, d = '.') ∧ q = q₁ ++ c :: ds := by
  constructor
  · intro h
    unfold endsGoodB at h
    cases hdw : q.reverse.dropWhile (fun c => c == '.') with
    | nil => rw [hdw] at h; exact absurd h (by simp)
    | cons c rest =>
      rw [hdw] at h
      have hcdot : c ≠ '.' := by
        have := dropWhile_head_neg (fun c => c == '.') q.reverse c rest hdw
        simpa using this
      have hcsl : c ≠ '/' := bne_iff_ne.mp h
      refine ⟨rest.reverse, c, (q.reverse.takeWhile (fun c => c == '.')).reverse,
        hcdot, hcsl, ?_, ?_⟩
      · intro d hd
        have := List.mem_takeWhile_imp (List.mem_reverse.mp hd)
        simpa using this
      · have hq : q.reverse.takeWhile (fun c => c == '.') ++ c :: rest = q.reverse := by
          rw [← hdw]; exact List.takeWhile_append_dropWhile _ _
        calc q = q.reverse.reverse := (List.reverse_reverse q).symm
          _ = (q.reverse.takeWhile (fun c => c == '.') ++ c :: rest).reverse := by rw [hq]
          _ = rest.reverse ++ c :: (q.reverse.takeWhile (fun c => c == '.')).reverse := by
                rw [List.reverse_append]; simp
  · rintro ⟨q₁, c, ds, hcdot, hcsl, hds, rfl⟩
    unfold endsGoodB
    have hrev : (q₁ ++ c :: ds).reverse = ds.reverse ++ c :: q₁.reverse := by
      rw [List.reverse_append]; simp
    rw [hrev, List.dropWhile_append_of_pos
      (fun a ha => by simpa using hds a (List.mem_reverse.mp ha)),
      List.dropWhile_cons_of_neg (by simpa using hcdot)]
    simpa using hcsl

theorem endsGoodB_upath (q : List Char) (h : endsGoodB q = true) :
    endsGoodB (escSp (unescSp q)) = true := by
  obtain ⟨q₁, c, ds, hcdot, hcsl, hds, rfl⟩ := (endsGoodB_iff q).mp h
  have hdsns : ∀ d ∈ ds, d ≠ ' ' := fun d hd => by rw [hds d hd]; decide
  by_cases hcs : c = ' '
  · subst hcs
    have hsd : unescSp (' ' :: ds) = ' ' :: ds := by
      rw [unescSp_cons_ne_bs ' ' ds (by decide), unescSp_nospace ds hdsns]
    have hesc : escSp (' ' :: ds) = '\\' :: ' ' :: ds := by
      show escChar ' ' ++ escSp ds = _
      rw [escSp_nospace ds hdsns]
      rfl
    by_cases hlast : q₁.getLast? = some '\\'
    · have hq₁ne : q₁ ≠ [] := by
        intro hnil
        rw [hnil] at hlast
        exact absurd hlast (by simp)
      have hgl : q₁.getLast hq₁ne = '\\' := by
        have := List.dropLast_append_getLast hq₁ne
        have h2 := List.getLast?_eq_getLast q₁ hq₁ne
        rw [h2] at hlast
        exact (Option.some.injEq _ _ ▸ hlast)
      have hsplit : q₁ = q₁.dropLast ++ ['\\'] := by
        conv_lhs => rw [← List.dropLast_append_getLast hq₁ne]
        rw [hgl]
      rw [hsplit, List.append_assoc]
      have hstep : unescSp (q₁.dropLast ++ (['\\'] ++ ' ' :: ds)) =
          unescSp q₁.dropLast ++ (' ' :: ds) := by
        rw [show ['\\'] ++ ' ' :: ds = '\\' :: ' ' :: ds from rfl,
          unescSp_append_cons q₁.dropLast '\\' (' ' :: ds) (by decide)]
        congr 1
        show unescSp ('\\' :: ' ' :: ds) = ' ' :: ds
        simp only [unescSp]
        rw [if_pos (And.intro trivial trivial), unescSp_nospace ds hdsns]
      rw [hstep, escSp_append, hesc]
      refine (endsGoodB_iff _).mpr ⟨escSp (unescSp q₁.dropLast) ++ ['\\'], ' ', ds,
        by decide, by decide, hds, ?_⟩
      rw [List.append_assoc]
      rfl
    · rw [unescSp_append_nolastbs q₁ (' ' :: ds) hlast, hsd, escSp_append, hesc]
      exact (endsGoodB_iff _).mpr ⟨escSp (unescSp q₁) ++ ['\\'], ' ', ds,
        by decide, by decide, hds, by rw [List.append_assoc]; rfl⟩
  · have hcds : ∀ x ∈ c :: ds, x ≠ ' ' := by
      intro x hx
      rcases List.mem_cons.mp hx with rfl | hx'
      · exact hcs
      · exact hdsns x hx'
    rw [unescSp_append_cons q₁ c ds hcs, unescSp_nospace (c :: ds) hcds,
      escSp_append, escSp_nospace (c :: ds) hcds]
    exact (endsGoodB_iff _).mpr ⟨escSp (unescSp q₁), c, ds, hcdot, hcsl, hds, rfl⟩

theorem splitext_append (q t : List Char) (ht : ∀ c ∈ t, c ≠ '.' ∧ c ≠ '/')
    (hq : endsGoodB q = true) :
    splitextList (q ++ '.' :: t) = (q, '.' :: t) := by
  have hrev : (q ++ '.' :: t).reverse = t.reverse ++ '.' :: q.reverse := by
    rw [List.reverse_append]
    simp
  have htb : ∀ a ∈ t.reverse, (a != '.' && a != '/') = true := by
    intro a ha
    have := ht a (List.mem_reverse.mp ha)
    simp [bne_iff_ne, this.1, this.2]
  simp only [splitextList, hrev]
  rw [List.takeWhile_append_of_pos htb, List.dropWhile_append_of_pos htb,
    List.takeWhile_cons_of_neg (by decide), List.dropWhile_cons_of_neg (by decide)]
  unfold endsGoodB at hq
  cases hdw : q.reverse.dropWhile (fun c => c == '.') with
  | nil => rw [hdw] at hq; exact absurd hq (by simp)
  | cons c rest =>
    rw [hdw] at hq
    simp only [if_pos rfl, hdw]
    rw [if_neg (bne_iff_ne.mp hq)]
    simp

theorem splitextList_ext_spec (p b e : List Char) (h : splitextList p = (b, e))
    (hne : e ≠ []) :
    ∃ t, e = '.' :: t ∧ (∀ c ∈ t, c ≠ '.' ∧ c ≠ '/') ∧ endsGoodB b = true ∧
      p = b ++ '.' :: t := by
  simp only [splitextList] at h
  split at h
  · exact absurd ((Prod.mk.injEq _ _ _ _ ▸ h).2.symm) hne
  · rename_i c0 rest1 hdw
    split at h
    · rename_i hc0
      split at h
      · exact absurd ((Prod.mk.injEq _ _ _ _ ▸ h).2.symm) hne
      · rename_i c rest2 hdw2
        split at h
        · exact absurd ((Prod.mk.injEq _ _ _ _ ▸ h).2.symm) hne
        · rename_i hc
          have hb : rest1.reverse = b := (Prod.mk.injEq _ _ _ _ ▸ h).1
          have he : '.' :: (p.reverse.takeWhile (fun c => c != '.' && c != '/')).reverse = e :=
            (Prod.mk.injEq _ _ _ _ ▸ h).2
          refine ⟨(p.reverse.takeWhile (fun c => c != '.' && c != '/')).reverse,
            he.symm, ?_, ?_, ?_⟩
          · intro x hx
            have := List.mem_takeWhile_imp (List.mem_reverse.mp hx)
            have h1 := (Bool.and_eq_true _ _).mp this
            exact ⟨bne_iff_ne.mp h1.1, bne_iff_ne.mp h1.2⟩
          · rw [← hb]
            unfold endsGoodB
            rw [List.reverse_reverse, hdw2]
            simpa using hc
          · have hq : p.reverse.takeWhile (fun c => c != '.' && c != '/') ++ c0 :: rest1 =
                p.reverse := by
              rw [← hdw]
              exact List.takeWhile_append_dropWhile _ _
            calc p = p.reverse.reverse := (List.reverse_reverse p).symm
              _ = (p.reverse.takeWhile (fun c => c != '.' && c != '/') ++ c0 :: rest1).reverse := by
                    rw [hq]
              _ = rest1.reverse ++ c0 ::
                    (p.reverse.takeWhile (fun c => c != '.' && c != '/')).reverse := by
                    rw [List.reverse_append]; simp
              _ = b ++ '.' :: (p.reverse.takeWhile (fun c => c != '.' && c != '/')).reverse := by
                    rw [hb, hc0]
    · exact absurd ((Prod.mk.injEq _ _ _ _ ▸ h).2.symm) hne

theorem getFileFormat_eq_fasta_iff (p : List Char) :
    getFileFormat p = .FASTA ↔ lowerL (splitextList p).2 ∈ fastaExts := by
  simp only [getFileFormat]
  split_ifs with hfa hsam hbam hsa hfofn hxml hh5
  · exact iff_of_true rfl hfa
  · exact iff_of_false (by decide) hfa
  · exact iff_of_false (by decide) hfa
  · exact iff_of_false (by decide) hfa
  · exact iff_of_false (by decide) hfa
  · exact iff_of_false (by decide) hfa
  · exact iff_of_false (h5Sub_ne_FASTA _) hfa
  · exact iff_of_false (by decide) hfa

theorem fastaExts_chars (e : List Char) (h : lowerL e ∈ fastaExts) :
    ∀ c ∈ e, c ≠ ' ' ∧ c ≠ '\\' := by
  intro c hc
  have hm : asciiLower c ∈ lowerL e := List.mem_map_of_mem asciiLower hc
  have h4 : lowerL e = (".fa").toList ∨ lowerL e = (".fasta").toList ∨
      lowerL e = (".fsta").toList ∨ lowerL e = (".fna").toList := by
    simpa [fastaExts] using h
  constructor
  · rintro rfl
    rcases h4 with h'|h'|h'|h' <;> rw [h'] at hm <;> exact absurd hm (by decide)
  · rintro rfl
    rcases h4 with h'|h'|h'|h' <;> rw [h'] at hm <;> exact absurd hm (by decide)

/-- Classification as FASTA is preserved by `real_upath`: the final
extension of a FASTA-classified path contains no space or backslash, so
the escaping transform leaves the extension split intact. -/
theorem getFileFormat_real_upath_fasta (f : List Char) (h : getFileFormat f = .FASTA) :
    getFileFormat (real_upath f) = .FASTA := by
  have hext : lowerL (splitextList f).2 ∈ fastaExts := (getFileFormat_eq_fasta_iff f).mp h
  have hene : (splitextList f).2 ≠ [] := by
    intro h0
    rw [h0] at hext
    exact absurd hext (by decide)
  obtain ⟨t, het, htc, hgb, hdecomp⟩ :=
    splitextList_ext_spec f (splitextList f).1 (splitextList f).2 rfl hene
  have hchars := fastaExts_chars (splitextList f).2 hext
  have hdt : ∀ x ∈ ('.' :: t), x ≠ ' ' := by
    intro x hx
    have : x ∈ (splitextList f).2 := by rw [het]; exact hx
    exact (hchars x this).1
  have h1 : unescSp f = unescSp (splitextList f).1 ++ ('.' :: t) := by
    conv_lhs => rw [hdecomp]
    rw [unescSp_append_cons (splitextList f).1 '.' t (by decide),
      unescSp_nospace ('.' :: t) hdt]
  have h2 : real_upath f = escSp (unescSp (splitextList f).1) ++ ('.' :: t) := by
    show escSp (unescSp f) = _
    rw [h1, escSp_append, escSp_nospace ('.' :: t) hdt]
  rw [h2, getFileFormat_eq_fasta_iff,
    splitext_append (escSp (unescSp (splitextList f).1)) t htc
      (endsGoodB_upath (splitextList f).1 hgb)]
  show lowerL ('.' :: t) ∈ fastaExts
  rw [← het]
  exact hext

theorem finishRef_ok_fasta (env : RefEnv) (rp fa : List Char)
    (saw : Option (List Char)) (rep : Bool) (gff : Option (List Char))
    (b : RefBundle) (h : finishRef env rp fa saw rep gff = .ok b) :
    getFileFormat b.fastaFile = .FASTA := by
  unfold finishRef at h
  by_cases hfa : getFileFormat fa = .FASTA
  · rw [if_neg (by simp [hfa])] at h
    have hb := (Except.ok.injEq _ _ ▸ h).symm
    rw [hb]
    exact getFileFormat_real_upath_fasta fa hfa
  · rw [if_pos hfa] at h
    exact Except.noConfusion h

theorem finishRef_invalid (env : RefEnv) (rp fa : List Char)
    (saw : Option (List Char)) (rep : Bool) (gff : Option (List Char))
    (h : getFileFormat fa ≠ .FASTA) :
    finishRef env rp fa saw rep gff = .error .invalidReference := by
  unfold finishRef
  rw [if_pos h]

theorem finishRef_discard (env : RefEnv) (rp fa s : List Char)
    (rep : Bool) (gff : Option (List Char))
    (hfa : getFileFormat fa = .FASTA)
    (hs : getFileFormat s ≠ .SA ∨ env.pathExists s = false) :
    finishRef env rp fa (some s) rep gff =
      .ok ⟨real_upath rp, real_upath fa, none, rep, gff⟩ := by
  unfold finishRef
  rw [if_neg (by simp [hfa])]
  simp only [if_pos hs]

theorem finishRef_ne_descriptor (env : RefEnv) (rp fa : List Char)
    (saw : Option (List Char)) (rep : Bool) (gff : Option (List Char))
    (d : DescErr) :
    finishRef env rp fa saw rep gff ≠ .error (.descriptor d) := by
  unfold finishRef
  by_cases hfa : getFileFormat fa ≠ .FASTA
  · rw [if_pos hfa]
    intro h
    exact RefError.noConfusion (Except.error.injEq _ _ ▸ h)
  · rw [if_neg hfa]
    intro h
    exact Except.noConfusion h

/-- C7.  Every successful `checkReferencePath` returns a bundle whose
`fastaFile` is classified FASTA by `getFileFormat`, and the final
validation step turns any non-FASTA candidate into an
`InvalidReferenceError` failure instead of returning. -/
theorem c7_fasta_file_invariant :
    (∀ (env : RefEnv) (p : List Char) (b : RefBundle),
      checkReferencePath env p = .ok b → getFileFormat b.fastaFile = .FASTA) ∧
    (∀ (env : RefEnv) (rp fa : List Char) (saw : Option (List Char))
      (rep : Bool) (gff : Option (List Char)),
      getFileFormat fa ≠ .FASTA →
      finishRef env rp fa saw rep gff = .error .invalidReference) := by
  constructor
  · intro env p b h
    simp only [checkReferencePath] at h
    by_cases hex : env.pathExists (real_ppath p) = false
    · rw [if_pos hex] at h
      exact Except.noConfusion h
    · rw [if_neg hex] at h
      by_cases hfa : getFileFormat (real_ppath p) = .FASTA
      · rw [if_pos hfa] at h
        cases hpr : env.parseRefInfo
            (pathJoin (posixSplit (dirname (real_ppath p))).1 refInfoXmlName) with
        | ok info => rw [hpr] at h; exact finishRef_ok_fasta _ _ _ _ _ _ _ h
        | error d => rw [hpr] at h; exact finishRef_ok_fasta _ _ _ _ _ _ _ h
      · rw [if_neg hfa] at h
        by_cases hxml : getFileFormat (real_ppath p) = .XML
        · rw [if_pos hxml] at h
          cases hds : env.datasetFofn (real_ppath p) with
          | nil => rw [hds] at h; exact Except.noConfusion h
          | cons f0 rest =>
            cases rest with
            | nil =>
              rw [hds] at h
              cases hpr : env.parseRefInfo
                  (pathJoin (posixSplit (dirname (real_ppath p))).1 refInfoXmlName) with
              | ok info => rw [hpr] at h; exact finishRef_ok_fasta _ _ _ _ _ _ _ h
              | error d => rw [hpr] at h; exact finishRef_ok_fasta _ _ _ _ _ _ _ h
            | cons f1 rest2 => rw [hds] at h; exact Except.noConfusion h
        · rw [if_neg hxml] at h
          cases hpr : env.parseRefInfo (pathJoin (real_ppath p) refInfoXmlName) with
          | ok info => rw [hpr] at h; exact finishRef_ok_fasta _ _ _ _ _ _ _ h
          | error d => rw [hpr] at h; exact Except.noConfusion h
  · intro env rp fa saw rep gff h
    exact finishRef_invalid env rp fa saw rep gff h

/-- Witness for `c7_fasta_file_invariant` on a concrete repository lookup. -/
theorem c7_witness :
    checkReferencePath refEnvRepo ("/repo").toList =
      .ok ⟨("/repo").toList, ("/r/seq/ref.fasta").toList,
        some (("/r/seq/ref.fasta.sa").toList), true, none⟩ ∧
    getFileFormat (("/r/seq/ref.fasta").toList) = .FASTA := by
  constructor
  · rfl
  · exact c7_fasta_file_invariant.1 refEnvRepo ("/repo").toList
      ⟨("/repo").toList, ("/r/seq/ref.fasta").toList,
        some (("/r/seq/ref.fasta.sa").toList), true, none⟩ (by rfl)

/-- C5.  When the descriptor fails to parse for any reason,
`checkReferencePath` falls back: with a directly identified FASTA file it
returns a bundle with `isWithinRepository = false` built from that file;
for an XML dataset argument it falls back to the dataset-identified
reference file (scheme stripped), again with `isWithinRepository = false`,
succeeding whenever that file is FASTA-classified; without any directly
identified file it fails with the ReferenceNotFound error; and in no
case does it surface the descriptor error itself. -/
theorem c5_descriptor_fallback :
    (∀ (env : RefEnv) (p : List Char) (d : DescErr),
      (∀ q, env.parseRefInfo q = .error d) →
      env.pathExists (real_ppath p) = true →
      getFileFormat (real_ppath p) ≠ .FASTA →
      getFileFormat (real_ppath p) ≠ .XML →
      checkReferencePath env p = .error .referenceNotFound) ∧
    (∀ (env : RefEnv) (p : List Char) (d : DescErr),
      (∀ q, env.parseRefInfo q = .error d) →
      env.pathExists (real_ppath p) = true →
      getFileFormat (real_ppath p) = .FASTA →
      checkReferencePath env p =
        .ok ⟨real_upath (real_ppath p), real_upath (real_ppath p), none, false, none⟩) ∧
    (∀ (env : RefEnv) (p : List Char) (d : DescErr) (f0 : List Char),
      (∀ q, env.parseRefInfo q = .error d) →
      env.pathExists (real_ppath p) = true →
      getFileFormat (real_ppath p) = .XML →
      env.datasetFofn (real_ppath p) = [f0] →
      checkReferencePath env p =
        finishRef env (real_ppath p) (stripFileScheme f0) none false none ∧
      (getFileFormat (stripFileScheme f0) = .FASTA →
        checkReferencePath env p =
          .ok ⟨real_upath (real_ppath p), real_upath (stripFileScheme f0),
            none, false, none⟩)) ∧
    (∀ (env : RefEnv) (p : List Char) (d : DescErr),
      checkReferencePath env p ≠ .error (.descriptor d)) := by
  refine ⟨?_, ?_, ?_, ?_⟩
  · intro env p d hpar hex hfa hxml
    simp only [checkReferencePath]
    rw [if_neg (by simp [hex]), if_neg hfa, if_neg hxml, hpar]
  · intro env p d hpar hex hfa
    simp only [checkReferencePath]
    rw [if_neg (by simp [hex]), if_pos hfa, hpar]
    show finishRef env (real_ppath p) (real_ppath p) none false none = _
    unfold finishRef
    rw [if_neg (by simp [hfa])]
  · intro env p d f0 hpar hex hxml hf0
    have hfb : checkReferencePath env p =
        finishRef env (real_ppath p) (stripFileScheme f0) none false none := by
      simp only [checkReferencePath]
      rw [if_neg (by simp [hex]), if_neg (by rw [hxml]; decide), if_pos hxml, hf0, hpar]
    refine ⟨hfb, ?_⟩
    intro hfasta
    rw [hfb]
    unfold finishRef
    rw [if_neg (by simp [hfasta])]
  · intro env p d
    intro h
    simp only [checkReferencePath] at h
    by_cases hex : env.pathExists (real_ppath p) = false
    · rw [if_pos hex] at h
      exact RefError.noConfusion (Except.error.injEq _ _ ▸ h)
    · rw [if_neg hex] at h
      by_cases hfa : getFileFormat (real_ppath p) = .FASTA
      · rw [if_pos hfa] at h
        cases hpr : env.parseRefInfo
            (pathJoin (posixSplit (dirname (real_ppath p))).1 refInfoXmlName) with
        | ok info => rw [hpr] at h; exact finishRef_ne_descriptor _ _ _ _ _ _ _ h
        | error e => rw [hpr] at h; exact finishRef_ne_descriptor _ _ _ _ _ _ _ h
      · rw [if_neg hfa] at h
        by_cases hxml : getFileFormat (real_ppath p) = .XML
        · rw [if_pos hxml] at h
          cases hds : env.datasetFofn (real_ppath p) with
          | nil =>
            rw [hds] at h
            exact RefError.noConfusion (Except.error.injEq _ _ ▸ h)
          | cons f0 rest =>
            cases rest with
            | nil =>
              rw [hds] at h
              cases hpr : env.parseRefInfo
                  (pathJoin (posixSplit (dirname (real_ppath p))).1 refInfoXmlName) with
              | ok info => rw [hpr] at h; exact finishRef_ne_descriptor _ _ _ _ _ _ _ h
              | error e => rw [hpr] at h; exact finishRef_ne_descriptor _ _ _ _ _ _ _ h
            | cons f1 rest2 =>
              rw [hds] at h
              exact RefError.noConfusion (Except.error.injEq _ _ ▸ h)
        · rw [if_neg hxml] at h
          cases hpr : env.parseRefInfo (pathJoin (real_ppath p) refInfoXmlName) with
          | ok info => rw [hpr] at h; exact finishRef_ne_descriptor _ _ _ _ _ _ _ h
          | error e =>
            rw [hpr] at h
            exact RefError.noConfusion (Except.error.injEq _ _ ▸ h)

/-- Witness for `c5_descriptor_fallback`: a repository directory whose
descriptor cannot be parsed yields ReferenceNotFound; a direct FASTA
argument falls back to a non-repository bundle; an XML dataset argument
falls back to the dataset-identified reference file, scheme stripped,
with `isWithinRepository = false`. -/
theorem c5_witness :
    checkReferencePath refEnvParseFail ("/repo").toList = .error .referenceNotFound ∧
    checkReferencePath refEnvParseFail ("/r/seq/ref.fasta").toList =
      .ok ⟨("/r/seq/ref.fasta").toList, ("/r/seq/ref.fasta").toList, none, false, none⟩ ∧
    checkReferencePath refEnvDataset ("/d/dataset.xml").toList =
      .ok ⟨("/d/dataset.xml").toList, ("/ds/ref.fasta").toList, none, false, none⟩ := by
  refine ⟨?_, ?_, ?_⟩
  · exact c5_descriptor_fallback.1 refEnvParseFail ("/repo").toList .xmlParseError
      (fun q => rfl) (by rfl) (by decide) (by decide)
  · exact c5_descriptor_fallback.2.1 refEnvParseFail ("/r/seq/ref.fasta").toList
      .xmlParseError (fun q => rfl) (by rfl) (by decide)
  · exact (c5_descriptor_fallback.2.2.1 refEnvDataset ("/d/dataset.xml").toList
      .xmlParseError ("file:/ds/ref.fasta").toList
      (fun q => rfl) (by rfl) (by decide) (by rfl)).2 (by decide)

/-- C6.  When the descriptor parses but names a sawriter index that is
missing on disk or not classified as a suffix-array file, resolution
still succeeds and silently returns `indexFile = none`. -/
theorem c6_index_silently_discarded :
    ∀ (env : RefEnv) (p : List Char) (info : RefInfoData) (s : List Char),
      (∀ q, env.parseRefInfo q = .ok info) →
      env.pathExists (real_ppath p) = true →
      (getFileFormat (real_ppath p) = .XML → ∃ f0, env.datasetFofn (real_ppath p) = [f0]) →
      info.refSawriterFile = some s →
      (getFileFormat s ≠ .SA ∨ env.pathExists s = false) →
      getFileFormat info.refFastaFile = .FASTA →
      checkReferencePath env p =
        .ok ⟨real_upath (real_ppath p), real_upath info.refFastaFile, none, true,
          info.adapterGffFile⟩ := by
  intro env p info s hpar hex hds hsw hbad hfa
  simp only [checkReferencePath]
  rw [if_neg (by simp [hex])]
  by_cases hfmt : getFileFormat (real_ppath p) = .FASTA
  · rw [if_pos hfmt, hpar]
    show finishRef env (real_ppath p) info.refFastaFile info.refSawriterFile true
        info.adapterGffFile = _
    rw [hsw]
    exact finishRef_discard env (real_ppath p) info.refFastaFile s true
      info.adapterGffFile hfa hbad
  · rw [if_neg hfmt]
    by_cases hxml : getFileFormat (real_ppath p) = .XML
    · rw [if_pos hxml]
      obtain ⟨f0, hf0⟩ := hds hxml
      rw [hf0, hpar]
      show finishRef env (real_ppath p) info.refFastaFile info.refSawriterFile true
          info.adapterGffFile = _
      rw [hsw]
      exact finishRef_discard env (real_ppath p) info.refFastaFile s true
        info.adapterGffFile hfa hbad
    · rw [if_neg hxml, hpar]
      show finishRef env (real_ppath p) info.refFastaFile info.refSawriterFile true
          info.adapterGffFile = _
      rw [hsw]
      exact finishRef_discard env (real_ppath p) info.refFastaFile s true
        info.adapterGffFile hfa hbad

/-- Witness for `c6_index_silently_discarded`: with the `.sa` file
deleted, resolution still succeeds and returns no index. -/
theorem c6_witness :
    checkReferencePath refEnvNoSa ("/repo").toList =
      .ok ⟨("/repo").toList, ("/r/seq/ref.fasta").toList, none, true, none⟩ := by
  exact c6_index_silently_discarded refEnvNoSa ("/repo").toList
    ⟨("/r/seq/ref.fasta").toList, some (("/r/seq/ref.fasta.sa").toList), none⟩
    ("/r/seq/ref.fasta.sa").toList (fun q => rfl) (by decide)
    (fun hx => absurd hx (by decide)) rfl (Or.inr (by decide)) (by decide)

/-- C10.  For a path with a valid output extension that does not exist
yet and whose parent directory is writable, `checkOutputFile` succeeds
and its only side effect is creating an empty file at that path: the
resulting state carries exactly the one new file and the writable
directories unchanged. -/
theorem c10_checkOutputFile_creates (fs : FS) (p : List Char)
    (hfmt : isValidOutputFormat (getFileFormat (real_ppath p)) = true)
    (hnew : real_ppath p ∉ fs.files)
    (hdir : dirname (real_ppath p) ∈ fs.writableDirs) :
    checkOutputFile fs p =
      .ok (real_upath (real_ppath p), ⟨real_ppath p :: fs.files, fs.writableDirs⟩) := by
  simp only [checkOutputFile, openAppend]
  rw [if_neg (by simp [hfmt]), if_neg hnew, if_pos hdir]

/-- Witness for `c10_checkOutputFile_creates` at a concrete path and
filesystem. -/
theorem c10_witness :
    checkOutputFile ⟨[], [("/out").toList]⟩ ("/out/o.sam").toList =
      .ok (("/out/o.sam").toList,
        ⟨[("/out/o.sam").toList], [("/out").toList]⟩) :=
  c10_checkOutputFile_creates ⟨[], [("/out").toList]⟩ ("/out/o.sam").toList
    (by decide) (by decide) (by decide)

theorem length_insertLine (a : List Char) (l : List (List Char)) :
    (insertLine a l).length = l.length + 1 := by
  induction l with
  | nil => rfl
  | cons b bs ih =>
    simp only [insertLine]
    split_ifs <;> simp [ih]

theorem length_sortLines (l : List (List Char)) :
    (sortLines l).length = l.length := by
  induction l with
  | nil => rfl
  | cons x xs ih => simp [sortLines, length_insertLine, ih]

theorem lexLe_total : ∀ a b : List Char, lexLe a b = true ∨ lexLe b a = true
  | [], _ => Or.inl rfl
  | _ :: _, [] => Or.inr rfl
  | a :: as, b :: bs => by
    by_cases hab : a = b
    · subst hab
      simp only [lexLe, if_pos rfl]
      exact lexLe_total as bs
    · simp only [lexLe, if_neg hab, if_neg (Ne.symm hab)]
      rcases lt_or_gt_of_ne hab with h | h
      · exact Or.inl (decide_eq_true h)
      · exact Or.inr (decide_eq_true h)

theorem lexLe_trans : ∀ x y z : List Char,
    lexLe x y = true → lexLe y z = true → lexLe x z = true
  | [], _, _, _, _ => rfl
  | a :: as, [], _, hxy, _ => by simp [lexLe] at hxy
  | _ :: _, _ :: _, [], _, hyz => by simp [lexLe] at hyz
  | a :: as, b :: bs, c :: cs, hxy, hyz => by
    simp only [lexLe] at hxy hyz ⊢
    by_cases hab : a = b
    · subst hab
      rw [if_pos rfl] at hxy
      by_cases hac : a = c
      · subst hac
        rw [if_pos rfl] at hyz ⊢
        exact lexLe_trans as bs cs hxy hyz
      · rw [if_neg hac] at hyz ⊢
        exact hyz
    · rw [if_neg hab] at hxy
      have hab' : a < b := of_decide_eq_true hxy
      by_cases hbc : b = c
      · subst hbc
        rw [if_neg hab]
        exact decide_eq_true hab'
      · rw [if_neg hbc] at hyz
        have hbc' : b < c := of_decide_eq_true hyz
        have hac' : a < c := lt_trans hab' hbc'
        rw [if_neg (ne_of_lt hac')]
        exact decide_eq_true hac'

theorem mem_insertLine (x a : List Char) : ∀ l : List (List Char),
    x ∈ insertLine a l → x = a ∨ x ∈ l
  | [] => by
    intro h
    simp [insertLine] at h
    exact Or.inl h
  | b :: bs => by
    intro h
    simp only [insertLine] at h
    split_ifs at h with hab
    · rcases List.mem_cons.mp h with rfl | h'
      · exact Or.inl rfl
      · exact Or.inr h'
    · rcases List.mem_cons.mp h with rfl | h'
      · exact Or.inr (List.mem_cons_self _ _)
      · rcases mem_insertLine x a bs h' with rfl | h''
        · exact Or.inl rfl
        · exact Or.inr (List.mem_cons_of_mem _ h'')

theorem pairwise_insertLine (a : List Char) (l : List (List Char))
    (hl : l.Pairwise (fun x y => lexLe x y = true)) :
    (insertLine a l).Pairwise (fun x y => lexLe x y = true) := by
  induction l with
  | nil => simp [insertLine]
  | cons b bs ih =>
    rcases List.pairwise_cons.mp hl with ⟨hb, hbs⟩
    simp only [insertLine]
    by_cases hab : lexLe a b = true
    · rw [if_pos hab]
      refine List.pairwise_cons.mpr ⟨?_, hl⟩
      intro x hx
      rcases List.mem_cons.mp hx with rfl | hx'
      · exact hab
      · exact lexLe_trans a b x hab (hb x hx')
    · rw [if_neg hab]
      have hba : lexLe b a = true := (lexLe_total a b).resolve_left hab
      refine List.pairwise_cons.mpr ⟨?_, ih hbs⟩
      intro x hx
      rcases mem_insertLine x a bs hx with rfl | hx'
      · exact hba
      · exact hb x hx'

theorem sortLines_pairwise (l : List (List Char)) :
    (sortLines l).Pairwise (fun x y => lexLe x y = true) := by
  induction l with
  | nil => exact List.Pairwise.nil
  | cons x xs ih => exact pairwise_insertLine x (sortLines xs) ih

/-- C4, counterexample.  A manifest with a single blank line has zero
usable entries, yet the expansion keeps the blank line (as the resolved
empty path) and `checkInputFile` succeeds without a manifest-empty
error; and a manifest whose lines carry leading whitespace is sorted on
the RAW lines, so the returned, stripped entries are not sorted. -/
theorem c4_counterexample :
    (getFilesFromFOFN [("\n").toList] = [[]] ∧
      checkInputFile ⟨fun _ => true, fun _ => [("\n").toList]⟩ ("/m.fofn").toList
        VALID_INPUT_FORMATS = .ok (("/m.fofn").toList)) ∧
    (getFilesFromFOFN [(" b\n").toList, ("a\n").toList] =
        [("b").toList, ("a").toList] ∧
      lexLe ("a").toList ("b").toList = true ∧
      lexLe ("b").toList ("a").toList = false) := by
  decide

/-- C4, amended.  The expansion strips each line but only after sorting
the RAW lines; every line is kept, blank or not, so the entry count
equals the line count; the sorted raw lines are lexicographically
ordered; and the manifest-empty failure of `checkInputFile` occurs
exactly when the manifest has zero lines (not zero usable lines). -/
theorem c4_amended_fofn (lines : List (List Char)) :
    getFilesFromFOFN lines = (sortLines lines).map (fun l => real_upath (pstrip l)) ∧
    (getFilesFromFOFN lines).length = lines.length ∧
    (sortLines lines).Pairwise (fun x y => lexLe x y = true) ∧
    (checkInputFile ⟨fun _ => true, fun _ => lines⟩ ("/m.fofn").toList
        VALID_INPUT_FORMATS = .error .manifestEmpty ↔ lines = []) := by
  have hlen : (getFilesFromFOFN lines).length = lines.length := by
    simp [getFilesFromFOFN, length_sortLines]
  refine ⟨rfl, hlen, sortLines_pairwise lines, ?_⟩
  constructor
  · intro h
    simp only [checkInputFile] at h
    rw [if_neg (by decide), if_neg (by decide), if_pos (by decide)] at h
    by_cases hl : (getFilesFromFOFN lines).length = 0
    · rw [hlen] at hl
      exact List.length_eq_zero.mp hl
    · rw [if_neg hl, if_pos (List.all_eq_true.mpr (fun x _ => rfl))] at h
      exact Except.noConfusion h
  · rintro rfl
    simp only [checkInputFile]
    rw [if_neg (by decide), if_neg (by decide), if_pos (by decide)]
    rfl

/-- Witness for `c4_amended_fofn`: the spec's own example manifest
`["b.fasta", "a.fasta"]` comes back sorted. -/
theorem c4_witness :
    (sortLines [("b.fasta\n").toList, ("a.fasta\n").toList]).Pairwise
      (fun x y => lexLe x y = true) ∧
    getFilesFromFOFN [("b.fasta\n").toList, ("a.fasta\n").toList] =
      [("a.fasta").toList, ("b.fasta").toList] :=
  ⟨(c4_amended_fofn [("b.fasta\n").toList, ("a.fasta\n").toList]).2.2.1, by decide⟩

namespace PBAlignRunner

/-- C8.  The Validating step fails with a fatal configuration error in
exactly the three cited situations: unconditionally for CMP.H5 output;
for BAM/XML output with an algorithm other than blasr; and for BAM/XML
output combined with adapter-only filtering. -/
theorem c8_makeSane_rejections (args : SaneArgs) (fileNames : SaneFileNames) :
    (getFileFormat fileNames.outputFileName = .CMP →
      makeSane args fileNames = .error .cmpH5NotSupported) ∧
    ((getFileFormat fileNames.outputFileName = .BAM ∨
        getFileFormat fileNames.outputFileName = .XML) →
      args.algorithm ≠ ("blasr").toList →
      makeSane args fileNames = .error .mustUseBlasrForBam) ∧
    ((getFileFormat fileNames.outputFileName = .BAM ∨
        getFileFormat fileNames.outputFileName = .XML) →
      args.algorithm = ("blasr").toList →
      args.filterAdapterOnly = true →
      makeSane args fileNames = .error .filterAdapterBam) := by
  have halg : ∀ a1 : SaneArgs,
      (if args.useccs = ("useccsdenovo").toList then
        (⟨args.useccs, ("CCS").toList, args.forQuiver, args.algorithm,
          args.filterAdapterOnly⟩ : SaneArgs)
      else args) = a1 → a1.algorithm = args.algorithm ∧
        a1.filterAdapterOnly = args.filterAdapterOnly := by
    intro a1 h
    split_ifs at h <;> rw [← h] <;> exact ⟨rfl, rfl⟩
  refine ⟨?_, ?_, ?_⟩
  · intro hcmp
    simp only [makeSane]
    rw [if_pos hcmp]
  · intro hbx hblasr
    simp only [makeSane]
    have hne : getFileFormat fileNames.outputFileName ≠ .CMP := by
      rcases hbx with h | h <;> rw [h] <;> decide
    rw [if_neg hne, if_pos hbx]
    obtain ⟨ha1, -⟩ := halg _ rfl
    split_ifs with hccs <;> simp_all
  · intro hbx hblasr hfilter
    simp only [makeSane]
    have hne : getFileFormat fileNames.outputFileName ≠ .CMP := by
      rcases hbx with h | h <;> rw [h] <;> decide
    rw [if_neg hne, if_pos hbx]
    obtain ⟨ha1, ha2⟩ := halg _ rfl
    split_ifs with hccs <;> simp_all

/-- Witness for `c8_makeSane_rejections`: the spec's own example, output
`out.bam` with algorithm `bowtie`, is rejected. -/
theorem c8_witness :
    makeSane ⟨[], [], false, ("bowtie").toList, false⟩ ⟨.FASTA, ("out.bam").toList⟩ =
      .error .mustUseBlasrForBam :=
  (c8_makeSane_rejections ⟨[], [], false, ("bowtie").toList, false⟩
    ⟨.FASTA, ("out.bam").toList⟩).2.1 (Or.inl (by decide)) (by decide)

/-- C9.  For SAM output the Emitting step attempts exactly one move (no
copy operation exists in its vocabulary), from the resolved intermediate
file to the final path; a move failure is surfaced immediately as the
fatal re-raised error, and a successful move completes the step. -/
theorem c9_sam_output_moves (env : OutEnv) (inSam refFile outFile : List Char)
    (hfmt : getFileFormat outFile = .SAM) :
    (output env inSam refFile outFile).2 =
      [.moveOp (env.readlink (real_ppath inSam)) (real_ppath outFile)] ∧
    (∀ e, env.moveResult = .error e →
      (output env inSam refFile outFile).1 = .error .moveFailed) ∧
    (env.moveResult = .ok () →
      (output env inSam refFile outFile).1 = .ok ()) := by
  simp only [output, if_pos hfmt]
  refine ⟨?_, ?_, ?_⟩
  · cases env.moveResult <;> rfl
  · intro e he
    rw [he]
  · intro hok
    rw [hok]

/-- Witness for `c9_sam_output_moves` at concrete paths with a failing
move. -/
theorem c9_witness :
    (output outEnvMoveFail ("/tmp/f.sam").toList ("/r.fasta").toList ("/o.sam").toList).2 =
      [.moveOp (("/tmp/f.sam").toList) (("/o.sam").toList)] ∧
    (output outEnvMoveFail ("/tmp/f.sam").toList ("/r.fasta").toList ("/o.sam").toList).1 =
      .error .moveFailed := by
  have h := c9_sam_output_moves outEnvMoveFail ("/tmp/f.sam").toList ("/r.fasta").toList
    ("/o.sam").toList (by decide)
  exact ⟨h.1, h.2.1 (("boom").toList) rfl⟩

/-- C1, counterexample.  A fatal error in the Validating stage
(`_makeSane`) propagates out of `run` without `_cleanUp` ever being
invoked: cleanup does not execute on this exceptional exit path. -/
theorem c1_counterexample :
    (run ⟨true, false, true, true, false, true, true, false⟩).result =
      .error .makeSaneStage ∧
    (run ⟨true, false, true, true, false, true, true, false⟩).cleanUpCall = none := by
  decide

/-- C1, amended.  `_cleanUp` is invoked exactly on the successful
fall-through path of `run` (with `realDelete` the negation of
`keepTmpFiles`); on every exceptional exit it is not invoked at all. -/
theorem c1_amended_cleanup_iff_success (env : RunEnv) :
    (run env).cleanUpCall =
      (if (run env).result = .ok 0 then some (!env.keepTmpFiles) else none) := by
  unfold run
  split_ifs <;> simp_all

end PBAlignRunner

end Pbalign
